import Mathlib

/-!
# Verification of the mpanel codemod scripts

Shallow embedding of `src/fix-catch-blocks.py` and `src/fix-ts-errors.py`.
Both scripts rewrite a file's text with Python `re.sub`, inserting the
keyword `return` before certain call sites unless the keyword already
occurs in a bounded lookback window, then write the file back only when
the text changed.

Text is modelled as `List Char`.  Python's `re.sub` with the patterns used
here is deterministic (the patterns have no ambiguous backtracking: `\s+`
must end exactly at the first non-whitespace character, and `[^)]+\)` must
end exactly at the first `)`), so each regex is embedded as an executable
left-to-right scanner (`subGo`) that mirrors `re.sub`'s leftmost,
non-overlapping scan: at each position it tries the pattern (a non-empty
whitespace run followed by the call token), emits the replacement chosen
by the guard lambda when it fires, and resumes after the match.  The guard
lambda of the source reads `m.string` (the string given to `re.sub`, not
the partially built output), so the scanner carries the reversed prefix of
the *input* consumed so far and takes the window from it.
-/

/-- Python's `\s` on a `str`: Unicode whitespace.  Covers the ASCII
whitespace characters and the Unicode space characters recognised by
Python 3's `re` module. -/
def isPySpace (c : Char) : Bool :=
  c == ' ' || c == '\t' || c == '\n' || c == '\r' ||
  c == Char.ofNat 0x0b || c == Char.ofNat 0x0c ||
  c == Char.ofNat 0x1c || c == Char.ofNat 0x1d ||
  c == Char.ofNat 0x1e || c == Char.ofNat 0x1f ||
  c == Char.ofNat 0x85 || c == Char.ofNat 0xa0 ||
  c == Char.ofNat 0x1680 ||
  (Char.ofNat 0x2000 ≤ c && c ≤ Char.ofNat 0x200a) ||
  c == Char.ofNat 0x2028 || c == Char.ofNat 0x2029 ||
  c == Char.ofNat 0x202f || c == Char.ofNat 0x205f ||
  c == Char.ofNat 0x3000

/-- The literal call token of `fix-catch-blocks.py`: `next(error);`. -/
def litNext : List Char := "next(error);".data

/-- The literal call token of the first `fix-ts-errors.py` pattern:
`res.json(`. -/
def litResJson : List Char := "res.json(".data

/-- The opening literal of the second `fix-ts-errors.py` pattern:
`res.status(`. -/
def litResStatus : List Char := "res.status(".data

/-- The closing literal of the second `fix-ts-errors.py` pattern:
`.json(`. -/
def litDotJson : List Char := ".json(".data

/-- The keyword the guard lambda searches for: `'return' not in ...`. -/
def litRet : List Char := "return".data

/-- The text inserted by the replacement lambda: `'return '`
(keyword plus one separating space). -/
def retIns : List Char := "return ".data

/-- Match a literal at the head of a character list; on success return the
remaining characters. -/
def dropLit : List Char → List Char → Option (List Char)
  | [], s => some s
  | _ :: _, [] => none
  | c :: l, d :: s => if c == d then dropLit l s else none

/-- Does `l` occur at the head of `s`? -/
def headLit (l s : List Char) : Bool := (dropLit l s).isSome

/-- Substring containment, Python's `lit in s`. -/
def occursIn (l : List Char) : List Char → Bool
  | [] => headLit l []
  | c :: s => headLit l (c :: s) || occursIn l s

/-- Call-token matcher for `next\(error\);` (fix-catch-blocks.py line 14):
on success returns the matched token (regex group 2) and the rest. -/
def tokNext (s : List Char) : Option (List Char × List Char) :=
  (dropLit litNext s).map fun r => (litNext, r)

/-- Call-token matcher for `res\.json\(` (fix-ts-errors.py line 19). -/
def tokResJson (s : List Char) : Option (List Char × List Char) :=
  (dropLit litResJson s).map fun r => (litResJson, r)

/-- Call-token matcher for `res\.status\([^)]+\)\.json\(`
(fix-ts-errors.py line 26).  `[^)]+` greedily matches one or more
characters other than `)`; since it cannot consume a `)`, the `\)` of the
pattern necessarily matches the first `)` after `res.status(`, so the
regex is equivalent to this deterministic scan. -/
def tokResStatus (s : List Char) : Option (List Char × List Char) :=
  match dropLit litResStatus s with
  | none => none
  | some r1 =>
    if (r1.takeWhile (fun c => c != ')')).isEmpty then none
    else
      match dropLit [')'] (r1.dropWhile (fun c => c != ')')) with
      | none => none
      | some r3 =>
        match dropLit litDotJson r3 with
        | none => none
        | some r4 =>
          some (litResStatus ++ r1.takeWhile (fun c => c != ')') ++
            ')' :: litDotJson, r4)

/-- One segment of a scanned text: either a character the regex scan
passed over, or a match of the pattern `(\s+)(token)` together with the
guard lambda's lookback window `m.string[max(0, m.start()-win):m.start()]`. -/
inductive Seg where
  | lit : Char → Seg
  | hit : List Char → List Char → List Char → Seg
deriving DecidableEq, Repr

/-- The last `n` characters of `l` (the lookback window
`l[max(0, len-n):len]`). -/
def lastN (n : Nat) (l : List Char) : List Char := (l.reverse.take n).reverse

/-- The text a segment came from: `m.group(0) = m.group(1) + m.group(2)`
for a hit. -/
def segOrig : Seg → List Char
  | .lit c => [c]
  | .hit _ ws call => ws ++ call

/-- The replacement lambda of the source applied to one segment:
`m.group(1) + 'return ' + m.group(2)` when `'return'` is not in the
window, else `m.group(0)`. -/
def segNew : Seg → List Char
  | .lit c => [c]
  | .hit w ws call => if occursIn litRet w then ws ++ call else ws ++ retIns ++ call

/-- Concatenate the original text of the segments. -/
def origOf : List Seg → List Char
  | [] => []
  | s :: rest => segOrig s ++ origOf rest

/-- Concatenate the replaced text of the segments: the output of `re.sub`. -/
def newOf : List Seg → List Char
  | [] => []
  | s :: rest => segNew s ++ newOf rest

/-- Number of matches at which the lambda inserts `'return '`
(windows not containing the keyword). -/
def insCount : List Seg → Nat
  | [] => 0
  | .lit _ :: rest => insCount rest
  | .hit w _ _ :: rest => (if occursIn litRet w then 0 else 1) + insCount rest

/-- Every match's window already contains the keyword (the guard keeps
every match unchanged). -/
def allGuarded : List Seg → Bool
  | [] => true
  | .lit _ :: rest => allGuarded rest
  | .hit w _ _ :: rest => occursIn litRet w && allGuarded rest

/-- Does the text contain a whitespace character immediately followed by a
suffix accepted by the call-token matcher (i.e. an occurrence of the
rule's pattern `\s+token`)? -/
def wsCall (tok : List Char → Option (List Char × List Char)) : List Char → Bool
  | [] => false
  | c :: rest => (isPySpace c && (tok rest).isSome) || wsCall tok rest

/-- The `re.sub` scan, producing segments.  `prefRev` is the reversed
prefix of the input consumed so far (the guard window is taken from it,
matching `m.string[max(0, m.start()-win):m.start()]`); `fuel` bounds the
recursion and is initialised with the text length, which suffices since
every step consumes at least one character. -/
def scanGo (tok : List Char → Option (List Char × List Char)) (win : Nat) :
    Nat → List Char → List Char → List Seg
  | 0, _, _ => []
  | _ + 1, _, [] => []
  | fuel + 1, prefRev, c :: rest =>
    if isPySpace c then
      match tok (rest.dropWhile isPySpace) with
      | some (call, rest2) =>
        Seg.hit ((prefRev.take win).reverse) (c :: rest.takeWhile isPySpace) call ::
          scanGo tok win fuel
            (((c :: rest.takeWhile isPySpace) ++ call).reverseAux prefRev) rest2
      | none => Seg.lit c :: scanGo tok win fuel (c :: prefRev) rest
    else Seg.lit c :: scanGo tok win fuel (c :: prefRev) rest

/-- The `re.sub` scan producing the output text directly: at a match it
emits the replacement lambda's result and resumes after the match, else it
copies one character.  (`subGo` and `scanGo` run in lockstep;
`subGo_eq_newOf` below proves `subGo = newOf ∘ scanGo`.) -/
def subGo (tok : List Char → Option (List Char × List Char)) (win : Nat) :
    Nat → List Char → List Char → List Char
  | 0, _, _ => []
  | _ + 1, _, [] => []
  | fuel + 1, prefRev, c :: rest =>
    if isPySpace c then
      match tok (rest.dropWhile isPySpace) with
      | some (call, rest2) =>
        (if occursIn litRet ((prefRev.take win).reverse)
          then (c :: rest.takeWhile isPySpace) ++ call
          else (c :: rest.takeWhile isPySpace) ++ retIns ++ call) ++
          subGo tok win fuel
            (((c :: rest.takeWhile isPySpace) ++ call).reverseAux prefRev) rest2
      | none => c :: subGo tok win fuel (c :: prefRev) rest
    else c :: subGo tok win fuel (c :: prefRev) rest

/-- The matches found by `re.sub(r'(\s+)(token)', guardLambda, t)`. -/
def scan (tok : List Char → Option (List Char × List Char)) (win : Nat)
    (t : List Char) : List Seg :=
  scanGo tok win t.length [] t

/-- `re.sub(r'(\s+)(token)', guardLambda, t)`: the rewritten text. -/
def pySub (tok : List Char → Option (List Char × List Char)) (win : Nat)
    (t : List Char) : List Char :=
  subGo tok win t.length [] t

/-- Result of one per-file function call: the file's content afterwards,
whether a write-back happened, and the function's return value. -/
structure FileResult where
  content : List Char
  wrote : Bool
  ret : Bool
deriving DecidableEq, Repr

/-- The single `re.sub` of `fix_catch_blocks` (fix-catch-blocks.py
lines 13-17): pattern `(\s+)(next\(error\);)`, 30-character lookback. -/
def fix_catch_blocks_rewrite (t : List Char) : List Char :=
  pySub tokNext 30 t

/-- `fix_catch_blocks` (fix-catch-blocks.py lines 5-23), with the file's
original text in place of the path: rewrites, then writes back and returns
`True` exactly when the text changed. -/
def fix_catch_blocks (t : List Char) : FileResult :=
  if fix_catch_blocks_rewrite t = t then ⟨t, false, false⟩
  else ⟨fix_catch_blocks_rewrite t, true, true⟩

/-- The two sequential `re.sub` passes of `fix_controller_returns`
(fix-ts-errors.py lines 18-29): first `(\s+)(res\.json\()`, then
`(\s+)(res\.status\([^)]+\)\.json\()`, both with a 20-character
lookback; the second pass runs on the first pass's output. -/
def fix_controller_returns_rewrite (t : List Char) : List Char :=
  pySub tokResStatus 20 (pySub tokResJson 20 t)

/-- `fix_controller_returns` (fix-ts-errors.py lines 9-35). -/
def fix_controller_returns (t : List Char) : FileResult :=
  if fix_controller_returns_rewrite t = t then ⟨t, false, false⟩
  else ⟨fix_controller_returns_rewrite t, true, true⟩

/-- The counting loop of both scripts' `main`: over the discovered files'
contents, count the files for which the per-file function returns `True`. -/
def mainFixedCount (fix : List Char → FileResult)
    (files : List (List Char)) : Nat :=
  files.foldl (fun n f => if (fix f).ret then n + 1 else n) 0

/-- A segment is rendered either unchanged, or — when it is a match whose
window lacks the keyword — with exactly the seven characters `'return '`
inserted between its whitespace run and its call token. -/
def InsertOnlySeg (s : Seg) : Prop :=
  segNew s = segOrig s ∨
    ∃ w ws call, s = Seg.hit w ws call ∧ ws ≠ [] ∧ ws.all isPySpace = true ∧
      occursIn litRet w = false ∧ segOrig s = ws ++ call ∧
      segNew s = ws ++ retIns ++ call

/-! ## Basic lemmas about the literal matcher and substring search -/

theorem dropLit_sound : ∀ (l s r : List Char), dropLit l s = some r → s = l ++ r := by
  intro l
  induction l with
  | nil =>
    intro s r h
    simp only [dropLit, Option.some.injEq] at h
    simp [h]
  | cons c l ih =>
    intro s r h
    cases s with
    | nil => simp [dropLit] at h
    | cons d s =>
      simp only [dropLit] at h
      by_cases hc : (c == d) = true
      · rw [if_pos hc] at h
        have hcd : c = d := by simpa using hc
        subst hcd
        simp [ih s r h]
      · rw [if_neg hc] at h
        exact absurd h (by simp)

theorem dropLit_append : ∀ (l r : List Char), dropLit l (l ++ r) = some r := by
  intro l
  induction l with
  | nil => intro r; rfl
  | cons c l ih => intro r; simp [dropLit, ih]

theorem headLit_append (l r : List Char) : headLit l (l ++ r) = true := by
  simp [headLit, dropLit_append]

theorem occursIn_of_headLit : ∀ (s l : List Char), headLit l s = true →
    occursIn l s = true := by
  intro s l h
  cases s with
  | nil => simpa [occursIn] using h
  | cons c s => simp [occursIn, h]

theorem occursIn_append : ∀ (p l q : List Char),
    occursIn l (p ++ (l ++ q)) = true := by
  intro p
  induction p with
  | nil =>
    intro l q
    exact occursIn_of_headLit _ _ (headLit_append l q)
  | cons c p ih =>
    intro l q
    simp [occursIn, ih l q]

theorem occursIn_suffix (p l : List Char) : occursIn l (p ++ l) = true := by
  have := occursIn_append p l []
  simpa using this

/-! ## The three call-token matchers consume exactly what they return -/

theorem tokNext_spec : ∀ (s : List Char) (p : List Char × List Char),
    tokNext s = some p → p.1 ++ p.2 = s := by
  intro s p h
  unfold tokNext at h
  cases hd : dropLit litNext s with
  | none => rw [hd] at h; exact absurd h (by simp)
  | some r =>
    rw [hd] at h
    simp only [Option.map_some', Option.some.injEq] at h
    rw [← h]
    exact (dropLit_sound _ _ _ hd).symm

theorem tokResJson_spec : ∀ (s : List Char) (p : List Char × List Char),
    tokResJson s = some p → p.1 ++ p.2 = s := by
  intro s p h
  unfold tokResJson at h
  cases hd : dropLit litResJson s with
  | none => rw [hd] at h; exact absurd h (by simp)
  | some r =>
    rw [hd] at h
    simp only [Option.map_some', Option.some.injEq] at h
    rw [← h]
    exact (dropLit_sound _ _ _ hd).symm

theorem tokResStatus_spec : ∀ (s : List Char) (p : List Char × List Char),
    tokResStatus s = some p → p.1 ++ p.2 = s := by
  intro s p h
  unfold tokResStatus at h
  split at h
  · exact absurd h (by simp)
  · rename_i r1 hd1
    split at h
    · exact absurd h (by simp)
    · rename_i he
      split at h
      · exact absurd h (by simp)
      · rename_i r3 hd2
        split at h
        · exact absurd h (by simp)
        · rename_i r4 hd3
          simp only [Option.some.injEq] at h
          have e1 : s = litResStatus ++ r1 := dropLit_sound _ _ _ hd1
          have e2 : r1.dropWhile (fun c => c != ')') = ')' :: r3 := by
            simpa using dropLit_sound _ _ _ hd2
          have e3 : r3 = litDotJson ++ r4 := dropLit_sound _ _ _ hd3
          have e4 : r1 = r1.takeWhile (fun c => c != ')') ++ (')' :: r3) := by
            rw [← e2, List.takeWhile_append_dropWhile]
          rw [← h]
          simp only [e1]
          conv_rhs => rw [e4, e3]
          simp [List.append_assoc]

/-! ## The scanner and the rewriter run in lockstep -/

/-- A call-token matcher returns exactly the characters it consumed. -/
def TokSpec (tok : List Char → Option (List Char × List Char)) : Prop :=
  ∀ (s : List Char) (p : List Char × List Char), tok s = some p → p.1 ++ p.2 = s

theorem subGo_succ_cons (tok : List Char → Option (List Char × List Char))
    (win f : Nat) (p : List Char) (c : Char) (rest : List Char) :
    subGo tok win (f + 1) p (c :: rest) =
      if isPySpace c then
        match tok (rest.dropWhile isPySpace) with
        | some (call, rest2) =>
          (if occursIn litRet ((p.take win).reverse)
            then (c :: rest.takeWhile isPySpace) ++ call
            else (c :: rest.takeWhile isPySpace) ++ retIns ++ call) ++
            subGo tok win f
              (((c :: rest.takeWhile isPySpace) ++ call).reverseAux p) rest2
        | none => c :: subGo tok win f (c :: p) rest
      else c :: subGo tok win f (c :: p) rest := rfl

theorem scanGo_succ_cons (tok : List Char → Option (List Char × List Char))
    (win f : Nat) (p : List Char) (c : Char) (rest : List Char) :
    scanGo tok win (f + 1) p (c :: rest) =
      if isPySpace c then
        match tok (rest.dropWhile isPySpace) with
        | some (call, rest2) =>
          Seg.hit ((p.take win).reverse) (c :: rest.takeWhile isPySpace) call ::
            scanGo tok win f
              (((c :: rest.takeWhile isPySpace) ++ call).reverseAux p) rest2
        | none => Seg.lit c :: scanGo tok win f (c :: p) rest
      else Seg.lit c :: scanGo tok win f (c :: p) rest := rfl

theorem subGo_eq_newOf (tok : List Char → Option (List Char × List Char))
    (win : Nat) : ∀ (fuel : Nat) (prefRev rest : List Char),
    subGo tok win fuel prefRev rest = newOf (scanGo tok win fuel prefRev rest) := by
  intro fuel
  induction fuel with
  | zero => intro p r; rfl
  | succ f ih =>
    intro p r
    cases r with
    | nil => rfl
    | cons c rest =>
      rw [subGo_succ_cons, scanGo_succ_cons]
      by_cases hc : isPySpace c = true
      · simp only [hc, if_true]
        cases htok : tok (rest.dropWhile isPySpace) with
        | none => simp [newOf, segNew, ih]
        | some pr =>
          obtain ⟨call, rest2⟩ := pr
          simp [newOf, segNew, ih]
      · simp only [hc, if_false, Bool.false_eq_true]
        simp [newOf, segNew, ih]

/-! ## The segments reconstruct the input text -/

theorem takeWhile_all (p : Char → Bool) : ∀ (l : List Char),
    (l.takeWhile p).all p = true := by
  intro l
  induction l with
  | nil => rfl
  | cons c rest ih =>
    by_cases hc : p c = true
    · simp [List.takeWhile_cons, hc, ih]
    · simp [List.takeWhile_cons, hc]

theorem length_dropWhile_le (p : Char → Bool) (l : List Char) :
    (l.dropWhile p).length ≤ l.length := by
  have h := congrArg List.length (List.takeWhile_append_dropWhile (p := p) (l := l))
  rw [List.length_append] at h
  omega

theorem scanGo_origOf (tok : List Char → Option (List Char × List Char))
    (hts : TokSpec tok) (win : Nat) :
    ∀ (fuel : Nat) (prefRev rest : List Char), rest.length ≤ fuel →
      origOf (scanGo tok win fuel prefRev rest) = rest := by
  intro fuel
  induction fuel with
  | zero =>
    intro p r h
    cases r with
    | nil => rfl
    | cons c rest => simp at h
  | succ f ih =>
    intro p r h
    cases r with
    | nil => rfl
    | cons c rest =>
      have hlen : rest.length ≤ f := by simp only [List.length_cons] at h; omega
      rw [scanGo_succ_cons]
      by_cases hc : isPySpace c = true
      · simp only [hc, if_true]
        cases htok : tok (rest.dropWhile isPySpace) with
        | none => simp [origOf, segOrig, ih _ _ hlen]
        | some pr =>
          obtain ⟨call, rest2⟩ := pr
          have hsplit : call ++ rest2 = rest.dropWhile isPySpace := hts _ _ htok
          have hlen2 : rest2.length ≤ f := by
            have h1 : (rest.dropWhile isPySpace).length ≤ rest.length :=
              length_dropWhile_le _ _
            have h2 : rest2.length ≤ (rest.dropWhile isPySpace).length := by
              rw [← hsplit]; simp
            omega
          simp only [origOf, segOrig]
          rw [ih _ _ hlen2]
          conv_rhs =>
            rw [show (c :: rest : List Char) = c ::
              (rest.takeWhile isPySpace ++ rest.dropWhile isPySpace) by
                rw [List.takeWhile_append_dropWhile]]
          rw [← hsplit]
          simp [List.append_assoc]
      · simp [hc, origOf, segOrig, ih _ _ hlen]

/-! ## Fixed points: all matches guarded means no change -/

theorem newOf_eq_origOf_of_allGuarded : ∀ (segs : List Seg),
    allGuarded segs = true → newOf segs = origOf segs := by
  intro segs
  induction segs with
  | nil => intro _; rfl
  | cons s rest ih =>
    intro h
    cases s with
    | lit c =>
      simp only [allGuarded] at h
      simp [newOf, origOf, segNew, segOrig, ih h]
    | hit w ws call =>
      simp only [allGuarded, Bool.and_eq_true] at h
      simp [newOf, origOf, segNew, segOrig, h.1, ih h.2]

theorem insCount_eq_zero_of_allGuarded : ∀ (segs : List Seg),
    allGuarded segs = true → insCount segs = 0 := by
  intro segs
  induction segs with
  | nil => intro _; rfl
  | cons s rest ih =>
    intro h
    cases s with
    | lit c =>
      simp only [allGuarded] at h
      simp [insCount, ih h]
    | hit w ws call =>
      simp only [allGuarded, Bool.and_eq_true] at h
      simp [insCount, h.1, ih h.2]

theorem pySub_eq_newOf (tok : List Char → Option (List Char × List Char))
    (win : Nat) (t : List Char) :
    pySub tok win t = newOf (scan tok win t) := by
  unfold pySub scan
  exact subGo_eq_newOf tok win t.length [] t

theorem pySub_id_of_allGuarded (tok : List Char → Option (List Char × List Char))
    (hts : TokSpec tok) (win : Nat) (t : List Char)
    (h : allGuarded (scan tok win t) = true) : pySub tok win t = t := by
  rw [pySub_eq_newOf, newOf_eq_origOf_of_allGuarded _ h]
  exact scanGo_origOf tok hts win t.length [] t le_rfl

/-! ## Every reported match is a whitespace-preceded call occurrence,
and its window is the text just before the whitespace run -/

theorem scanGo_zero (tok : List Char → Option (List Char × List Char))
    (win : Nat) (p r : List Char) : scanGo tok win 0 p r = [] := rfl

theorem scanGo_nil (tok : List Char → Option (List Char × List Char))
    (win f : Nat) (p : List Char) : scanGo tok win (f + 1) p [] = [] := rfl

theorem scanGo_hit_mem (tok : List Char → Option (List Char × List Char))
    (hts : TokSpec tok) (win : Nat) :
    ∀ (fuel : Nat) (prefRev rest w ws call : List Char),
      Seg.hit w ws call ∈ scanGo tok win fuel prefRev rest →
      ∃ mid r2, rest = mid ++ ws ++ call ++ r2 ∧
        w = ((mid.reverse ++ prefRev).take win).reverse ∧
        ws ≠ [] ∧ ws.all isPySpace = true ∧ tok (call ++ r2) = some (call, r2) := by
  intro fuel
  induction fuel with
  | zero =>
    intro p r w ws call h
    rw [scanGo_zero] at h
    exact absurd h (List.not_mem_nil _)
  | succ f ih =>
    intro p r w ws call h
    cases r with
    | nil =>
      rw [scanGo_nil] at h
      exact absurd h (List.not_mem_nil _)
    | cons c rest =>
      rw [scanGo_succ_cons] at h
      by_cases hc : isPySpace c = true
      · rw [if_pos hc] at h
        cases htok : tok (rest.dropWhile isPySpace) with
        | none =>
          rw [htok] at h
          rcases List.mem_cons.mp h with heq | hmem
          · exact absurd heq (by simp)
          · obtain ⟨mid, r2, h1, h2, h3, h4, h5⟩ := ih (c :: p) rest w ws call hmem
            refine ⟨c :: mid, r2, by simp [h1], ?_, h3, h4, h5⟩
            rw [h2]
            simp [List.append_assoc]
        | some pr =>
          obtain ⟨call0, rest2⟩ := pr
          rw [htok] at h
          have hsplit : call0 ++ rest2 = rest.dropWhile isPySpace := hts _ _ htok
          rcases List.mem_cons.mp h with heq | hmem
          · rw [Seg.hit.injEq] at heq
            obtain ⟨e1, e2, e3⟩ := heq
            refine ⟨[], rest2, ?_, by simpa using e1, by simp [e2], ?_, ?_⟩
            · rw [e2, e3]
              conv_lhs =>
                rw [show (c :: rest : List Char) = c ::
                  (rest.takeWhile isPySpace ++ rest.dropWhile isPySpace) by
                    rw [List.takeWhile_append_dropWhile]]
              rw [← hsplit]
              simp [List.append_assoc]
            · rw [e2]
              simp only [List.all_cons, Bool.and_eq_true]
              exact ⟨hc, takeWhile_all isPySpace rest⟩
            · rw [e3, hsplit]
              exact htok
          · obtain ⟨mid, r2, h1, h2, h3, h4, h5⟩ :=
              ih (((c :: rest.takeWhile isPySpace) ++ call0).reverseAux p)
                rest2 w ws call hmem
            refine ⟨(c :: rest.takeWhile isPySpace) ++ call0 ++ mid, r2, ?_, ?_, h3, h4, h5⟩
            · conv_lhs =>
                rw [show (c :: rest : List Char) = c ::
                  (rest.takeWhile isPySpace ++ rest.dropWhile isPySpace) by
                    rw [List.takeWhile_append_dropWhile]]
              rw [← hsplit, h1]
              simp [List.append_assoc]
            · rw [h2]
              simp [List.reverseAux_eq, List.reverse_append, List.append_assoc]
      · rw [if_neg hc] at h
        rcases List.mem_cons.mp h with heq | hmem
        · exact absurd heq (by simp)
        · obtain ⟨mid, r2, h1, h2, h3, h4, h5⟩ := ih (c :: p) rest w ws call hmem
          refine ⟨c :: mid, r2, by simp [h1], ?_, h3, h4, h5⟩
          rw [h2]
          simp [List.append_assoc]

theorem scan_hit_mem (tok : List Char → Option (List Char × List Char))
    (hts : TokSpec tok) (win : Nat) (t w ws call : List Char)
    (h : Seg.hit w ws call ∈ scan tok win t) :
    ∃ pre r2, t = pre ++ ws ++ call ++ r2 ∧ w = lastN win pre ∧
      ws ≠ [] ∧ ws.all isPySpace = true ∧ tok (call ++ r2) = some (call, r2) := by
  obtain ⟨mid, r2, h1, h2, h3, h4, h5⟩ :=
    scanGo_hit_mem tok hts win t.length [] t w ws call h
  exact ⟨mid, r2, h1, by simpa [lastN] using h2, h3, h4, h5⟩

/-! ## The rewrite only inserts: sublist and length accounting -/

theorem segOrig_sublist_segNew (s : Seg) : List.Sublist (segOrig s) (segNew s) := by
  cases s with
  | lit c => simp [segOrig, segNew]
  | hit w ws call =>
    simp only [segOrig, segNew]
    by_cases hw : occursIn litRet w = true
    · rw [if_pos hw]
    · rw [if_neg hw]
      rw [List.append_assoc]
      exact (List.sublist_append_right retIns call).append_left ws

theorem origOf_sublist_newOf : ∀ (segs : List Seg),
    List.Sublist (origOf segs) (newOf segs) := by
  intro segs
  induction segs with
  | nil => exact List.Sublist.refl _
  | cons s rest ih =>
    simp only [origOf, newOf]
    exact (segOrig_sublist_segNew s).append ih

theorem retIns_length : retIns.length = 7 := rfl

theorem newOf_length : ∀ (segs : List Seg),
    (newOf segs).length = (origOf segs).length + 7 * insCount segs := by
  intro segs
  induction segs with
  | nil => rfl
  | cons s rest ih =>
    cases s with
    | lit c => simp [origOf, newOf, segOrig, segNew, insCount, ih]; omega
    | hit w ws call =>
      by_cases hw : occursIn litRet w = true
      · simp [origOf, newOf, segOrig, segNew, insCount, hw, ih]
        omega
      · simp [origOf, newOf, segOrig, segNew, insCount, hw, ih, retIns_length]
        omega

/-! ## Windows and suffixes: the guard sees an immediately preceding keyword -/

theorem lastN_suffix (n : Nat) (q m : List Char) (h : m.length ≤ n) :
    ∃ p, lastN n (q ++ m) = p ++ m := by
  refine ⟨(q.reverse.take (n - m.length)).reverse, ?_⟩
  unfold lastN
  rw [List.reverse_append, List.take_append_eq_append_take,
    List.take_of_length_le (by simpa using h), List.reverse_append,
    List.reverse_reverse]
  simp

theorem occursIn_lastN_of_suffix (n : Nat) (q m : List Char) (h : m.length ≤ n) :
    occursIn m (lastN n (q ++ m)) = true := by
  obtain ⟨p, hp⟩ := lastN_suffix n q m h
  rw [hp]
  exact occursIn_suffix p m

/-! ## Texts with no whitespace-preceded call occurrence are left alone -/

theorem wsCall_of_run (tok : List Char → Option (List Char × List Char)) :
    ∀ (ws u : List Char), ws ≠ [] → ws.all isPySpace = true →
      (tok u).isSome = true → wsCall tok (ws ++ u) = true := by
  intro ws
  induction ws with
  | nil => intro u h; exact absurd rfl h
  | cons d ws' ih =>
    intro u _ hall htok
    simp only [List.all_cons, Bool.and_eq_true] at hall
    cases ws' with
    | nil =>
      simp only [List.nil_append, List.cons_append, wsCall, Bool.or_eq_true,
        Bool.and_eq_true]
      exact Or.inl ⟨hall.1, htok⟩
    | cons e ws'' =>
      have htail := ih u (by simp) hall.2 htok
      have hstep : wsCall tok ((d :: e :: ws'') ++ u) =
          ((isPySpace d && (tok ((e :: ws'') ++ u)).isSome) ||
            wsCall tok ((e :: ws'') ++ u)) := rfl
      rw [hstep, htail, Bool.or_true]

theorem subGo_id_of_not_wsCall (tok : List Char → Option (List Char × List Char))
    (win : Nat) : ∀ (fuel : Nat) (prefRev rest : List Char),
      rest.length ≤ fuel → wsCall tok rest = false →
      subGo tok win fuel prefRev rest = rest := by
  intro fuel
  induction fuel with
  | zero =>
    intro p r h _
    cases r with
    | nil => rfl
    | cons c rest => simp at h
  | succ f ih =>
    intro p r h hws
    cases r with
    | nil => rfl
    | cons c rest =>
      have hlen : rest.length ≤ f := by simp only [List.length_cons] at h; omega
      simp only [wsCall, Bool.or_eq_false_iff, Bool.and_eq_false_iff] at hws
      obtain ⟨hhead, hrest⟩ := hws
      rw [subGo_succ_cons]
      by_cases hc : isPySpace c = true
      · rw [if_pos hc]
        cases htok : tok (rest.dropWhile isPySpace) with
        | none => rw [ih (c :: p) rest hlen hrest]
        | some pr =>
          exfalso
          cases hw : rest.takeWhile isPySpace with
          | nil =>
            have hd : rest.dropWhile isPySpace = rest := by
              conv_rhs => rw [← List.takeWhile_append_dropWhile
                (p := isPySpace) (l := rest), hw]
              rfl
            rw [hd] at htok
            rcases hhead with h1 | h2
            · exact absurd hc (by simp [h1])
            · rw [htok] at h2; simp at h2
          | cons e tw =>
            have : wsCall tok rest = true := by
              have hrun : wsCall tok
                  (rest.takeWhile isPySpace ++ rest.dropWhile isPySpace) = true := by
                apply wsCall_of_run tok _ _ (by simp [hw])
                  (takeWhile_all isPySpace rest)
                simp [htok]
              rwa [List.takeWhile_append_dropWhile] at hrun
            rw [this] at hrest
            exact absurd hrest (by simp)
      · rw [if_neg hc]
        rw [ih (c :: p) rest hlen hrest]

theorem pySub_id_of_not_wsCall (tok : List Char → Option (List Char × List Char))
    (win : Nat) (t : List Char) (h : wsCall tok t = false) :
    pySub tok win t = t :=
  subGo_id_of_not_wsCall tok win t.length [] t le_rfl h

/-! ## Counting loop of main -/

theorem foldl_count_eq_countP (fix : List Char → FileResult) :
    ∀ (files : List (List Char)) (n0 : Nat),
      files.foldl (fun n f => if (fix f).ret then n + 1 else n) n0 =
        n0 + files.countP (fun f => (fix f).ret) := by
  intro files
  induction files with
  | nil => intro n0; simp
  | cons f rest ih =>
    intro n0
    simp only [List.foldl_cons]
    rw [ih]
    simp only [List.countP_cons]
    by_cases hf : (fix f).ret = true
    · rw [if_pos hf, if_pos hf]
      omega
    · rw [if_neg hf, if_neg hf]
      omega

/-! ## Guard behaviour at a single match -/

theorem hit_guard_spec (tok : List Char → Option (List Char × List Char))
    (hts : TokSpec tok) (win : Nat) (hwin : litRet.length ≤ win)
    (t w ws call : List Char) (h : Seg.hit w ws call ∈ scan tok win t) :
    ∃ pre r2, t = pre ++ ws ++ call ++ r2 ∧ w = lastN win pre ∧
      (segNew (Seg.hit w ws call) = segOrig (Seg.hit w ws call) ↔
        occursIn litRet w = true) ∧
      (occursIn litRet w = false → ¬ ∃ q, pre = q ++ litRet) := by
  obtain ⟨pre, r2, h1, h2, h3, h4, h5⟩ := scan_hit_mem tok hts win t w ws call h
  refine ⟨pre, r2, h1, h2, ?_, ?_⟩
  · constructor
    · intro heq
      by_contra hocc
      have hocc' : occursIn litRet w = false := by simpa using hocc
      have hnew : segNew (Seg.hit w ws call) = ws ++ retIns ++ call := by
        simp [segNew, hocc']
      have horig : segOrig (Seg.hit w ws call) = ws ++ call := rfl
      rw [hnew, horig] at heq
      have hlen := congrArg List.length heq
      simp only [List.length_append, retIns_length] at hlen
      omega
    · intro hocc
      simp [segNew, segOrig, hocc]
  · intro hocc hex
    obtain ⟨q, hq⟩ := hex
    have hsuf := occursIn_lastN_of_suffix win q litRet hwin
    rw [← hq, ← h2] at hsuf
    rw [hocc] at hsuf
    exact absurd hsuf (by simp)

theorem seg_insert_shape (tok : List Char → Option (List Char × List Char))
    (hts : TokSpec tok) (win : Nat) (t : List Char) :
    ∀ s ∈ scan tok win t, InsertOnlySeg s := by
  intro s hs
  cases s with
  | lit c => exact Or.inl rfl
  | hit w ws call =>
    by_cases hw : occursIn litRet w = true
    · exact Or.inl (by simp [segNew, segOrig, hw])
    · have hw' : occursIn litRet w = false := by simpa using hw
      obtain ⟨pre, r2, h1, h2, h3, h4, h5⟩ := scan_hit_mem tok hts win t w ws call hs
      exact Or.inr ⟨w, ws, call, rfl, h3, h4, hw', rfl, by simp [segNew, hw']⟩

/-! ## The per-file functions write and report `True` exactly on change -/

theorem fix_catch_blocks_cases (t : List Char) :
    ((fix_catch_blocks t).wrote = true ↔ fix_catch_blocks_rewrite t ≠ t) ∧
    ((fix_catch_blocks t).ret = true ↔ fix_catch_blocks_rewrite t ≠ t) ∧
    (fix_catch_blocks t).content = fix_catch_blocks_rewrite t := by
  by_cases h : fix_catch_blocks_rewrite t = t
  · simp [fix_catch_blocks, h]
  · simp [fix_catch_blocks, h]

theorem fix_controller_returns_cases (t : List Char) :
    ((fix_controller_returns t).wrote = true ↔
      fix_controller_returns_rewrite t ≠ t) ∧
    ((fix_controller_returns t).ret = true ↔
      fix_controller_returns_rewrite t ≠ t) ∧
    (fix_controller_returns t).content = fix_controller_returns_rewrite t := by
  by_cases h : fix_controller_returns_rewrite t = t
  · simp [fix_controller_returns, h]
  · simp [fix_controller_returns, h]

theorem countP_ext (p q : List Char → Bool) (h : ∀ f, p f = q f) :
    ∀ (files : List (List Char)), files.countP p = files.countP q := by
  intro files
  induction files with
  | nil => rfl
  | cons f rest ih => simp [List.countP_cons, h f, ih]

/-! ## Claim theorems -/

/-- C1.  Idempotence at fixed points: for every input in which the keyword
`return` already precedes (within the guard's lookback window) every
whitespace-preceded `next(error);` occurrence, and every input in which it
precedes every whitespace-preceded `res.json(` and `res.status(...).json(`
occurrence, the full rewrite returns the text unchanged, the per-file
function performs no write and returns `False`, and zero insertions are
made. -/
theorem c1_idempotence_at_fixed_points (t u : List Char)
    (h1 : allGuarded (scan tokNext 30 t) = true)
    (h2 : allGuarded (scan tokResJson 20 u) = true)
    (h3 : allGuarded (scan tokResStatus 20 u) = true) :
    fix_catch_blocks_rewrite t = t ∧
    fix_catch_blocks t = ⟨t, false, false⟩ ∧
    insCount (scan tokNext 30 t) = 0 ∧
    fix_controller_returns_rewrite u = u ∧
    fix_controller_returns u = ⟨u, false, false⟩ ∧
    insCount (scan tokResJson 20 u) + insCount (scan tokResStatus 20 u) = 0 := by
  have e1 : fix_catch_blocks_rewrite t = t :=
    pySub_id_of_allGuarded tokNext tokNext_spec 30 t h1
  have e2 : pySub tokResJson 20 u = u :=
    pySub_id_of_allGuarded tokResJson tokResJson_spec 20 u h2
  have e3 : pySub tokResStatus 20 u = u :=
    pySub_id_of_allGuarded tokResStatus tokResStatus_spec 20 u h3
  have e4 : fix_controller_returns_rewrite u = u := by
    unfold fix_controller_returns_rewrite
    rw [e2, e3]
  refine ⟨e1, ?_, insCount_eq_zero_of_allGuarded _ h1, e4, ?_, ?_⟩
  · unfold fix_catch_blocks
    rw [if_pos e1]
  · unfold fix_controller_returns
    rw [if_pos e4]
  · rw [insCount_eq_zero_of_allGuarded _ h2, insCount_eq_zero_of_allGuarded _ h3]

theorem c1_witness :
    allGuarded (scan tokNext 30 ("  return next(error);".data)) = true ∧
    fix_catch_blocks ("  return next(error);".data) =
      ⟨"  return next(error);".data, false, false⟩ ∧
    fix_controller_returns ("  return res.json(x);".data) =
      ⟨"  return res.json(x);".data, false, false⟩ := by
  refine ⟨by decide, ?_, ?_⟩
  · exact (c1_idempotence_at_fixed_points
      ("  return next(error);".data) ("  return res.json(x);".data)
      (by decide) (by decide) (by decide)).2.1
  · exact (c1_idempotence_at_fixed_points
      ("  return next(error);".data) ("  return res.json(x);".data)
      (by decide) (by decide) (by decide)).2.2.2.2.1

/-- C2.  Guard correctness: every match found by a rule decomposes the text
as `pre ++ ws ++ call ++ rest`, its window is exactly the last 30
(`next(error);` rule) or 20 (`res.json` rules) characters of `pre`, the
match is rendered unchanged exactly when that window contains `return`,
and when an insertion is made the text just before the whitespace run does
not end in `return` — so no doubled keyword is ever produced. -/
theorem c2_guard_correctness :
    (∀ (t w ws call : List Char), Seg.hit w ws call ∈ scan tokNext 30 t →
      ∃ pre r2, t = pre ++ ws ++ call ++ r2 ∧ w = lastN 30 pre ∧
        (segNew (Seg.hit w ws call) = segOrig (Seg.hit w ws call) ↔
          occursIn litRet w = true) ∧
        (occursIn litRet w = false → ¬ ∃ q, pre = q ++ litRet)) ∧
    (∀ (t w ws call : List Char), Seg.hit w ws call ∈ scan tokResJson 20 t →
      ∃ pre r2, t = pre ++ ws ++ call ++ r2 ∧ w = lastN 20 pre ∧
        (segNew (Seg.hit w ws call) = segOrig (Seg.hit w ws call) ↔
          occursIn litRet w = true) ∧
        (occursIn litRet w = false → ¬ ∃ q, pre = q ++ litRet)) ∧
    (∀ (t w ws call : List Char), Seg.hit w ws call ∈ scan tokResStatus 20 t →
      ∃ pre r2, t = pre ++ ws ++ call ++ r2 ∧ w = lastN 20 pre ∧
        (segNew (Seg.hit w ws call) = segOrig (Seg.hit w ws call) ↔
          occursIn litRet w = true) ∧
        (occursIn litRet w = false → ¬ ∃ q, pre = q ++ litRet)) := by
  refine ⟨?_, ?_, ?_⟩
  · intro t w ws call h
    exact hit_guard_spec tokNext tokNext_spec 30 (by decide) t w ws call h
  · intro t w ws call h
    exact hit_guard_spec tokResJson tokResJson_spec 20 (by decide) t w ws call h
  · intro t w ws call h
    exact hit_guard_spec tokResStatus tokResStatus_spec 20 (by decide) t w ws call h

theorem c2_witness :
    (Seg.hit ("  return".data) (" ".data) litNext ∈
      scan tokNext 30 ("  return next(error);".data)) ∧
    ∃ pre r2, ("  return next(error);".data : List Char) =
        pre ++ " ".data ++ litNext ++ r2 ∧
      ("  return".data : List Char) = lastN 30 pre ∧
      (segNew (Seg.hit ("  return".data) (" ".data) litNext) =
          segOrig (Seg.hit ("  return".data) (" ".data) litNext) ↔
        occursIn litRet ("  return".data) = true) ∧
      (occursIn litRet ("  return".data) = false →
        ¬ ∃ q, pre = q ++ litRet) := by
  exact ⟨by decide, c2_guard_correctness.1
    ("  return next(error);".data) ("  return".data) (" ".data) litNext (by decide)⟩

/-- C3 (counterexample).  The claim says an exit-triggering call occurrence
inside a string literal is never matched and receives no inserted keyword.
On `const m = " next(error);";`, whose only candidate occurrence lies
inside the string literal, the rewrite nevertheless inserts `return`
inside the literal, so the text changes: the claim is false. -/
theorem c3_counterexample :
    fix_catch_blocks_rewrite ("const m = \" next(error);\";".data) =
      ("const m = \" return next(error);\";".data) ∧
    ("const m = \" return next(error);\";".data : List Char) ≠
      ("const m = \" next(error);\";".data) := by
  exact ⟨by decide, by decide⟩

/-- C3 (amended).  The matcher is a purely textual scan with no string- or
comment-literal awareness: an occurrence of an exit-triggering call shape
inside a string literal or a comment is matched and rewritten exactly like
a code occurrence. -/
theorem c3_amended_literal_scan :
    fix_catch_blocks_rewrite ("// next(error);".data) =
      ("// return next(error);".data) ∧
    fix_controller_returns_rewrite ("s = \" res.json(x)\";".data) =
      ("s = \" return res.json(x)\";".data) := by
  exact ⟨by decide, by decide⟩

/-- C4.  Targeted insertion: on `  next(error);` (two leading spaces, no
keyword anywhere before), `fix_catch_blocks` produces
`  return next(error);`, preserving the two leading spaces and inserting
the keyword plus one space immediately before the call token; the file is
written and the function returns `True`. -/
theorem c4_targeted_insertion :
    fix_catch_blocks ("  next(error);".data) =
      ⟨"  return next(error);".data, true, true⟩ := by decide

/-- C5.  Chained-call boundary: on
`    res.status(404).json({ ok: false });` with no preceding keyword,
`fix_controller_returns` performs exactly one insertion, at the start of
the chain. -/
theorem c5_chained_call_boundary :
    fix_controller_returns
        ("    res.status(404).json(\x7b ok: false \x7d);".data) =
      ⟨"    return res.status(404).json(\x7b ok: false \x7d);".data,
        true, true⟩ ∧
    insCount (scan tokResJson 20
        ("    res.status(404).json(\x7b ok: false \x7d);".data)) +
      insCount (scan tokResStatus 20 (pySub tokResJson 20
        ("    res.status(404).json(\x7b ok: false \x7d);".data))) = 1 := by
  exact ⟨by decide, by decide⟩

/-- C6 (counterexample).  The claim says that for nested matches (a
whitespace-preceded `res.json(` inside a `res.status(...).json(` chain)
only the outermost boundary is one match and exactly one keyword is
inserted.  On `  res.status(a).json( res.json(b));` the code does not
produce the claimed single-insertion output. -/
theorem c6_counterexample :
    fix_controller_returns_rewrite ("  res.status(a).json( res.json(b));".data) ≠
      ("  return res.status(a).json( res.json(b));".data) := by decide

/-- C6 (amended).  For nested matches each rule fires separately: the
`res.json` pass inserts inside the argument list and the `res.status` pass
inserts at the chain start, producing two insertions for the nested
expression. -/
theorem c6_amended_nested_double_insertion :
    fix_controller_returns_rewrite ("  res.status(a).json( res.json(b));".data) =
      ("  return res.status(a).json( return res.json(b));".data) ∧
    insCount (scan tokResJson 20 ("  res.status(a).json( res.json(b));".data)) +
      insCount (scan tokResStatus 20 (pySub tokResJson 20
        ("  res.status(a).json( res.json(b));".data))) = 2 := by
  exact ⟨by decide, by decide⟩

/-- C7.  Frame property: the input is exactly the concatenation of the
scan's segments, the output is exactly the concatenation of their
rewrites, and every segment is either rendered unchanged or is a
whitespace-preceded match rendered with only `return ` inserted between
its (preserved) whitespace run and its call token.  For
`fix_controller_returns` this holds for each of its two passes, chained
through the intermediate text. -/
theorem c7_frame_property (t : List Char) :
    (t = origOf (scan tokNext 30 t) ∧
      fix_catch_blocks_rewrite t = newOf (scan tokNext 30 t) ∧
      ∀ s ∈ scan tokNext 30 t, InsertOnlySeg s) ∧
    (t = origOf (scan tokResJson 20 t) ∧
      pySub tokResJson 20 t = newOf (scan tokResJson 20 t) ∧
      (∀ s ∈ scan tokResJson 20 t, InsertOnlySeg s) ∧
      pySub tokResJson 20 t =
        origOf (scan tokResStatus 20 (pySub tokResJson 20 t)) ∧
      fix_controller_returns_rewrite t =
        newOf (scan tokResStatus 20 (pySub tokResJson 20 t)) ∧
      ∀ s ∈ scan tokResStatus 20 (pySub tokResJson 20 t), InsertOnlySeg s) := by
  refine ⟨⟨?_, ?_, seg_insert_shape tokNext tokNext_spec 30 t⟩,
    ?_, ?_, seg_insert_shape tokResJson tokResJson_spec 20 t, ?_, ?_,
    seg_insert_shape tokResStatus tokResStatus_spec 20 (pySub tokResJson 20 t)⟩
  · exact (scanGo_origOf tokNext tokNext_spec 30 t.length [] t le_rfl).symm
  · exact pySub_eq_newOf tokNext 30 t
  · exact (scanGo_origOf tokResJson tokResJson_spec 20 t.length [] t le_rfl).symm
  · exact pySub_eq_newOf tokResJson 20 t
  · exact (scanGo_origOf tokResStatus tokResStatus_spec 20
      (pySub tokResJson 20 t).length [] (pySub tokResJson 20 t) le_rfl).symm
  · exact pySub_eq_newOf tokResStatus 20 (pySub tokResJson 20 t)

theorem c7_witness :
    ("  next(error);".data : List Char) =
      origOf (scan tokNext 30 ("  next(error);".data)) ∧
    fix_catch_blocks_rewrite ("  next(error);".data) =
      newOf (scan tokNext 30 ("  next(error);".data)) ∧
    InsertOnlySeg (Seg.hit [] ("  ".data) litNext) := by
  have h := c7_frame_property ("  next(error);".data)
  exact ⟨h.1.1, h.1.2.1, h.1.2.2 (Seg.hit [] ("  ".data) litNext) (by decide)⟩

/-- C8.  No-write-on-no-change and counting: each per-file function writes
back and returns `True` exactly when the rewritten text differs from the
original, and the total reported by `main` equals the number of files
whose text changed. -/
theorem c8_no_write_on_no_change :
    (∀ t : List Char,
      ((fix_catch_blocks t).wrote = true ↔ fix_catch_blocks_rewrite t ≠ t) ∧
      ((fix_catch_blocks t).ret = true ↔ fix_catch_blocks_rewrite t ≠ t)) ∧
    (∀ t : List Char,
      ((fix_controller_returns t).wrote = true ↔
        fix_controller_returns_rewrite t ≠ t) ∧
      ((fix_controller_returns t).ret = true ↔
        fix_controller_returns_rewrite t ≠ t)) ∧
    (∀ files : List (List Char),
      mainFixedCount fix_catch_blocks files =
        files.countP (fun f => decide (fix_catch_blocks_rewrite f ≠ f))) ∧
    (∀ files : List (List Char),
      mainFixedCount fix_controller_returns files =
        files.countP (fun f => decide (fix_controller_returns_rewrite f ≠ f))) := by
  refine ⟨?_, ?_, ?_, ?_⟩
  · intro t
    exact ⟨(fix_catch_blocks_cases t).1, (fix_catch_blocks_cases t).2.1⟩
  · intro t
    exact ⟨(fix_controller_returns_cases t).1,
      (fix_controller_returns_cases t).2.1⟩
  · intro files
    unfold mainFixedCount
    rw [foldl_count_eq_countP fix_catch_blocks files 0]
    rw [countP_ext (fun f => (fix_catch_blocks f).ret)
      (fun f => decide (fix_catch_blocks_rewrite f ≠ f)) ?_ files]
    · simp
    · intro f
      by_cases h : fix_catch_blocks_rewrite f = f
      · simp [fix_catch_blocks, h]
      · simp [fix_catch_blocks, h]
  · intro files
    unfold mainFixedCount
    rw [foldl_count_eq_countP fix_controller_returns files 0]
    rw [countP_ext (fun f => (fix_controller_returns f).ret)
      (fun f => decide (fix_controller_returns_rewrite f ≠ f)) ?_ files]
    · simp
    · intro f
      by_cases h : fix_controller_returns_rewrite f = f
      · simp [fix_controller_returns, h]
      · simp [fix_controller_returns, h]

/-- C9.  Whitespace requirement: every match any rule reports carries a
non-empty all-whitespace run before its call token, so a call occurrence
not immediately preceded by whitespace (at the start of the text or after
a non-whitespace character) is never matched; a text with no
whitespace-preceded occurrence at all is returned unchanged with no write
and return value `False`. -/
theorem c9_whitespace_required :
    (∀ t w ws call, Seg.hit w ws call ∈ scan tokNext 30 t →
      ws ≠ [] ∧ ws.all isPySpace = true) ∧
    (∀ t w ws call, Seg.hit w ws call ∈ scan tokResJson 20 t →
      ws ≠ [] ∧ ws.all isPySpace = true) ∧
    (∀ t w ws call, Seg.hit w ws call ∈ scan tokResStatus 20 t →
      ws ≠ [] ∧ ws.all isPySpace = true) ∧
    (∀ t, wsCall tokNext t = false →
      fix_catch_blocks t = ⟨t, false, false⟩) ∧
    (∀ u, wsCall tokResJson u = false → wsCall tokResStatus u = false →
      fix_controller_returns u = ⟨u, false, false⟩) := by
  refine ⟨?_, ?_, ?_, ?_, ?_⟩
  · intro t w ws call h
    obtain ⟨_, _, _, _, h3, h4, _⟩ :=
      scan_hit_mem tokNext tokNext_spec 30 t w ws call h
    exact ⟨h3, h4⟩
  · intro t w ws call h
    obtain ⟨_, _, _, _, h3, h4, _⟩ :=
      scan_hit_mem tokResJson tokResJson_spec 20 t w ws call h
    exact ⟨h3, h4⟩
  · intro t w ws call h
    obtain ⟨_, _, _, _, h3, h4, _⟩ :=
      scan_hit_mem tokResStatus tokResStatus_spec 20 t w ws call h
    exact ⟨h3, h4⟩
  · intro t h
    have e : fix_catch_blocks_rewrite t = t := pySub_id_of_not_wsCall tokNext 30 t h
    unfold fix_catch_blocks
    rw [if_pos e]
  · intro u h1 h2
    have e1 : pySub tokResJson 20 u = u := pySub_id_of_not_wsCall tokResJson 20 u h1
    have e : fix_controller_returns_rewrite u = u := by
      unfold fix_controller_returns_rewrite
      rw [e1]
      exact pySub_id_of_not_wsCall tokResStatus 20 u h2
    unfold fix_controller_returns
    rw [if_pos e]

theorem c9_witness :
    (("  ".data : List Char) ≠ [] ∧
      ("  ".data : List Char).all isPySpace = true) ∧
    fix_catch_blocks ("next(error);".data) =
      ⟨"next(error);".data, false, false⟩ ∧
    fix_controller_returns ("x=res.json(1);".data) =
      ⟨"x=res.json(1);".data, false, false⟩ := by
  refine ⟨?_, ?_, ?_⟩
  · exact c9_whitespace_required.1 ("  next(error);".data) [] ("  ".data)
      litNext (by decide)
  · exact c9_whitespace_required.2.2.2.1 ("next(error);".data) (by decide)
  · exact c9_whitespace_required.2.2.2.2 ("x=res.json(1);".data)
      (by decide) (by decide)

/-- C10.  Pure-insertion invariant: each per-file rewrite only inserts
copies of the seven-character string `return ` — the input text is a
subsequence of the output and the output's length is the input's length
plus seven times the number of insertions (for `fix_controller_returns`,
summed over its two passes). -/
theorem c10_pure_insertion (t : List Char) :
    List.Sublist t (fix_catch_blocks_rewrite t) ∧
    (fix_catch_blocks_rewrite t).length =
      t.length + 7 * insCount (scan tokNext 30 t) ∧
    List.Sublist t (fix_controller_returns_rewrite t) ∧
    (fix_controller_returns_rewrite t).length =
      t.length + 7 * (insCount (scan tokResJson 20 t) +
        insCount (scan tokResStatus 20 (pySub tokResJson 20 t))) := by
  have key : ∀ (tok : List Char → Option (List Char × List Char)),
      TokSpec tok → ∀ (win : Nat) (u : List Char),
      List.Sublist u (pySub tok win u) ∧
      (pySub tok win u).length = u.length + 7 * insCount (scan tok win u) := by
    intro tok hts win u
    have e0 : origOf (scan tok win u) = u :=
      scanGo_origOf tok hts win u.length [] u le_rfl
    constructor
    · rw [pySub_eq_newOf]
      conv_lhs => rw [← e0]
      exact origOf_sublist_newOf _
    · rw [pySub_eq_newOf, newOf_length, e0]
  obtain ⟨s1, l1⟩ := key tokNext tokNext_spec 30 t
  obtain ⟨s2, l2⟩ := key tokResJson tokResJson_spec 20 t
  obtain ⟨s3, l3⟩ := key tokResStatus tokResStatus_spec 20 (pySub tokResJson 20 t)
  refine ⟨s1, l1, s2.trans s3, ?_⟩
  show (pySub tokResStatus 20 (pySub tokResJson 20 t)).length = _
  rw [l3, l2]
  omega
